/-
  Verification of the hand-written Newton solvers in this repository.

  Two algorithms are embedded over the reals:
  * homework/HW5/HW5-2.py : newton_method_with_line_search, a damped Newton
    method with Armijo backtracking line search on
    f(x1,x2) = (2 x1 + x2^2 - 4)^2 + (x1^2 + x2 - 8)^2, with a
    steepest-descent fallback when the 2x2 Hessian is singular.
  * homework/HW4/HW4.py : newton_method, a fixed-step Newton iteration on
    f(x) = -x + 2^x with stopping test abs (f_prime x) < tol.

  Machine floats are modelled by real numbers; numpy vectors of length 2 by
  pairs of reals; np.linalg.solve on a 2x2 system by Cramer's rule, raising
  (returning none) exactly on a singular matrix; the possibly nonterminating
  backtracking while-loop by the least accepted exponent when one exists and
  by a divergence marker (none for the whole run) otherwise.
-/
import Mathlib

namespace NLS

/- Vectors in the plane, matching numpy arrays of shape (2,). -/
abbrev Vec := ℝ × ℝ

/- A 2x2 matrix with rows (a b) and (c d). -/
structure Mat where
  a : ℝ
  b : ℝ
  c : ℝ
  d : ℝ

noncomputable def det (M : Mat) : ℝ := M.a * M.d - M.b * M.c

noncomputable def dot (u v : Vec) : ℝ := u.1 * v.1 + u.2 * v.2

noncomputable def smul (t : ℝ) (v : Vec) : Vec := (t * v.1, t * v.2)

noncomputable def vadd (u v : Vec) : Vec := (u.1 + v.1, u.2 + v.2)

noncomputable def vneg (v : Vec) : Vec := (-v.1, -v.2)

noncomputable def normSq (v : Vec) : ℝ := dot v v

/- Euclidean norm, np.linalg.norm. -/
noncomputable def norm2 (v : Vec) : ℝ := Real.sqrt (normSq v)

noncomputable def v0 : Vec := (0, 0)

/- np.linalg.solve(M, g): solves M s = g by Cramer; LinAlgError (none) exactly
   when M is singular. -/
noncomputable def solve2 (M : Mat) (g : Vec) : Option Vec :=
  if det M = 0 then none
  else some ((M.d * g.1 - M.b * g.2) / det M, (M.a * g.2 - M.c * g.1) / det M)

/- The try/except block of HW5-2.py lines 66-71: d = -solve(H, g), falling
   back to d = -g when the solve raises. -/
noncomputable def direction (M : Mat) (g : Vec) : Vec :=
  match solve2 M g with
  | some s => vneg s
  | none => vneg g

/- Objective of HW5-2.py: f(x1, x2) = (2 x1 + x2^2 - 4)^2 + (x1^2 + x2 - 8)^2. -/
noncomputable def fObj (x : Vec) : ℝ := (2 * x.1 + x.2 ^ 2 - 4) ^ 2 + (x.1 ^ 2 + x.2 - 8) ^ 2

/- gradient_f of HW5-2.py. -/
noncomputable def gradient_f (x : Vec) : Vec :=
  (4 * x.1 ^ 3 + 4 * x.1 * x.2 - 24 * x.1 + 4 * x.2 ^ 2 - 16,
   4 * x.2 ^ 3 + 8 * x.1 * x.2 - 14 * x.2 + 2 * x.1 ^ 2 - 16)

/- hessian_f of HW5-2.py. -/
noncomputable def hessian_f (x : Vec) : Mat :=
  ⟨12 * x.1 ^ 2 + 4 * x.2 - 24, 4 * x.1 + 8 * x.2,
   4 * x.1 + 8 * x.2, 12 * x.2 ^ 2 + 8 * x.1 - 14⟩

/- The keyword parameters of newton_method_with_line_search. -/
structure Config where
  alpha_bar : ℝ
  rho : ℝ
  c : ℝ
  epsilon : ℝ
  max_iter : ℤ

noncomputable def defaultConfig : Config := ⟨1, 1 / 2, 1 / 10, 1 / 10000, 100⟩

/- The parameter ranges the spec calls a valid Configuration. -/
def ValidConfig (cfg : Config) : Prop :=
  0 < cfg.rho ∧ cfg.rho < 1 ∧ 0 < cfg.c ∧ cfg.c < 1 ∧
    0 < cfg.alpha_bar ∧ 0 < cfg.epsilon ∧ 0 < cfg.max_iter

/- The Armijo acceptance test at the candidate step alpha_bar * rho ^ n: the
   while-loop of HW5-2.py lines 74-76 exits at the first n for which this
   holds. -/
noncomputable def armijoAt (f : Vec → ℝ) (x d : Vec) (slope c ab rho : ℝ) (n : ℕ) : Prop :=
  f (vadd x (smul (ab * rho ^ n) d)) ≤ f x + c * (ab * rho ^ n) * slope

/- The backtracking loop: returns the first accepted step size when the loop
   exits, none when the loop would run forever. -/
open Classical in
noncomputable def lineSearch (f : Vec → ℝ) (x d : Vec) (slope c ab rho : ℝ) : Option ℝ :=
  if h : ∃ n, armijoAt f x d slope c ab rho n then some (ab * rho ^ Nat.find h) else none

/- Search direction at the current iterate. -/
noncomputable def dirAt (grad : Vec → Vec) (hess : Vec → Mat) (x : Vec) : Vec :=
  direction (hess x) (grad x)

noncomputable def slopeAt (grad : Vec → Vec) (hess : Vec → Mat) (x : Vec) : ℝ :=
  dot (grad x) (dirAt grad hess x)

noncomputable def lsAt (f : Vec → ℝ) (grad : Vec → Vec) (hess : Vec → Mat)
    (cfg : Config) (x : Vec) : Option ℝ :=
  lineSearch f x (dirAt grad hess x) (slopeAt grad hess x) cfg.c cfg.alpha_bar cfg.rho

/- The accepted update x + alpha * d of HW5-2.py line 79. -/
noncomputable def stepAt (grad : Vec → Vec) (hess : Vec → Mat) (x : Vec) (al : ℝ) : Vec :=
  vadd x (smul al (dirAt grad hess x))

/- The for-loop of HW5-2.py lines 57-85, fuelled by the remaining iteration
   count; none records that a backtracking loop failed to terminate. -/
open Classical in
noncomputable def loop (f : Vec → ℝ) (grad : Vec → Vec) (hess : Vec → Mat) (cfg : Config) :
    ℕ → Vec → List Vec → List ℝ → Option (Vec × List Vec × List ℝ)
  | 0, x, pts, ss => some (x, pts, ss)
  | fuel + 1, x, pts, ss =>
      if norm2 (grad x) ≤ cfg.epsilon then some (x, pts, ss)
      else
        match lsAt f grad hess cfg x with
        | none => none
        | some al =>
            loop f grad hess cfg fuel (stepAt grad hess x al)
              (pts ++ [stepAt grad hess x al]) (ss ++ [al])

/- The generic minimizer: x = x0.copy(); points = [x0]; step_sizes = [];
   then the iteration loop. -/
noncomputable def newtonLS (f : Vec → ℝ) (grad : Vec → Vec) (hess : Vec → Mat)
    (x0 : Vec) (cfg : Config) : Option (Vec × List Vec × List ℝ) :=
  loop f grad hess cfg cfg.max_iter.toNat x0 [x0] []

/- newton_method_with_line_search of HW5-2.py, with its module-level
   objective, gradient and Hessian. -/
noncomputable def newton_method_with_line_search (x0 : Vec) (cfg : Config) :
    Option (Vec × List Vec × List ℝ) :=
  newtonLS fObj gradient_f hessian_f x0 cfg

/- One run, recorded step by step: Run x ps ss xf means the loop body ran
   once per element of ss starting from x, appended the points ps, and ended
   at xf. -/
inductive Run (f : Vec → ℝ) (grad : Vec → Vec) (hess : Vec → Mat) (cfg : Config) :
    Vec → List Vec → List ℝ → Vec → Prop
  | done (x : Vec) : Run f grad hess cfg x [] [] x
  | step (x : Vec) (al : ℝ) (ps : List Vec) (ss : List ℝ) (xf : Vec)
      (hbig : ¬ norm2 (grad x) ≤ cfg.epsilon)
      (hls : lsAt f grad hess cfg x = some al)
      (htail : Run f grad hess cfg (stepAt grad hess x al) ps ss xf) :
      Run f grad hess cfg x (stepAt grad hess x al :: ps) (al :: ss) xf

end NLS

namespace HW4

/- Objective of HW4.py: f(x) = -x + 2^x (real power). -/
noncomputable def f (x : ℝ) : ℝ := -x + (2 : ℝ) ^ x

/- f_prime of HW4.py: -1 + 2^x * ln 2. -/
noncomputable def f_prime (x : ℝ) : ℝ := -1 + (2 : ℝ) ^ x * Real.log 2

/- f_double_prime of HW4.py: 2^x * (ln 2)^2. -/
noncomputable def f_double_prime (x : ℝ) : ℝ := (2 : ℝ) ^ x * Real.log 2 ^ 2

/- One Newton update, HW4.py line 53. -/
noncomputable def newtonMap (x : ℝ) : ℝ := x - f_prime x / f_double_prime x

/- The iterate after k updates from x0. -/
noncomputable def orbit (x0 : ℝ) : ℕ → ℝ
  | 0 => x0
  | k + 1 => newtonMap (orbit x0 k)

/- One element of the iterations list built at HW4.py lines 41-46. -/
structure Entry where
  k : ℕ
  x : ℝ
  fx : ℝ
  fpx : ℝ

noncomputable def mkEntry (k : ℕ) (x : ℝ) : Entry := ⟨k, x, f x, f_prime x⟩

instance : Inhabited Entry := ⟨⟨0, 0, 0, 0⟩⟩

/- The for-loop of HW4.py lines 36-53: append the record, test convergence,
   update. -/
open Classical in
noncomputable def loop4 (tol : ℝ) : ℕ → ℕ → ℝ → List Entry → ℝ × List Entry
  | 0, _, x, acc => (x, acc)
  | fuel + 1, k, x, acc =>
      if |f_prime x| < tol then (x, acc ++ [mkEntry k x])
      else loop4 tol fuel (k + 1) (newtonMap x) (acc ++ [mkEntry k x])

/- newton_method of HW4.py. -/
noncomputable def newton_method (x0 tol : ℝ) (max_iter : ℕ) : ℝ × List Entry :=
  loop4 tol max_iter 0 x0 []

/- The closed-form stationary point -log2 (ln 2) of f. -/
noncomputable def xstar : ℝ := -Real.logb 2 (Real.log 2)

/- Degree-7 Taylor polynomial of exp at 0, used for certified numeric
   bounds on the HW4 run. -/
noncomputable def expPoly (x : ℝ) : ℝ :=
  1 + x + x ^ 2 / 2 + x ^ 3 / 6 + x ^ 4 / 24 + x ^ 5 / 120 + x ^ 6 / 720 + x ^ 7 / 5040

end HW4

namespace NLS

theorem normSq_nonneg (v : Vec) : 0 ≤ normSq v := by
  have hv : normSq v = v.1 * v.1 + v.2 * v.2 := rfl
  nlinarith [sq_nonneg v.1, sq_nonneg v.2]

theorem norm2_le_iff {v : Vec} {e : ℝ} : norm2 v ≤ e ↔ 0 ≤ e ∧ normSq v ≤ e ^ 2 := by
  unfold norm2
  constructor
  · intro h
    have he : 0 ≤ e := le_trans (Real.sqrt_nonneg _) h
    refine ⟨he, ?_⟩
    calc normSq v = Real.sqrt (normSq v) ^ 2 := (Real.sq_sqrt (normSq_nonneg v)).symm
      _ ≤ e ^ 2 := pow_le_pow_left₀ (Real.sqrt_nonneg _) h 2
  · rintro ⟨he, hs⟩
    calc Real.sqrt (normSq v) ≤ Real.sqrt (e ^ 2) := Real.sqrt_le_sqrt hs
      _ = e := Real.sqrt_sq he

theorem lineSearch_eq_some_iff {f : Vec → ℝ} {x d : Vec} {slope c ab rho al : ℝ} :
    lineSearch f x d slope c ab rho = some al ↔
      ∃ n, armijoAt f x d slope c ab rho n ∧
        (∀ m, m < n → ¬ armijoAt f x d slope c ab rho m) ∧ al = ab * rho ^ n := by
  classical
  unfold lineSearch
  constructor
  · intro h
    split at h
    · next hex =>
        injection h with h2
        exact ⟨Nat.find hex, Nat.find_spec hex, fun m hm => Nat.find_min hex hm, h2.symm⟩
    · exact absurd h (by simp)
  · rintro ⟨n, hn, hmin, rfl⟩
    have hex : ∃ m, armijoAt f x d slope c ab rho m := ⟨n, hn⟩
    rw [dif_pos hex]
    have : Nat.find hex = n := (Nat.find_eq_iff hex).mpr ⟨hn, hmin⟩
    rw [this]

theorem lineSearch_eq_none_iff {f : Vec → ℝ} {x d : Vec} {slope c ab rho : ℝ} :
    lineSearch f x d slope c ab rho = none ↔
      ∀ n, ¬ armijoAt f x d slope c ab rho n := by
  classical
  unfold lineSearch
  constructor
  · intro h n hn
    rw [dif_pos ⟨n, hn⟩] at h
    exact absurd h (by simp)
  · intro h
    rw [dif_neg]
    rintro ⟨n, hn⟩
    exact h n hn

theorem lineSearch_some_armijo {f : Vec → ℝ} {x d : Vec} {slope c ab rho al : ℝ}
    (h : lineSearch f x d slope c ab rho = some al) :
    f (vadd x (smul al d)) ≤ f x + c * al * slope := by
  obtain ⟨n, hn, -, rfl⟩ := lineSearch_eq_some_iff.mp h
  exact hn

theorem lineSearch_some_nonneg {f : Vec → ℝ} {x d : Vec} {slope c ab rho al : ℝ}
    (hab : 0 ≤ ab) (hrho : 0 ≤ rho)
    (h : lineSearch f x d slope c ab rho = some al) : 0 ≤ al := by
  obtain ⟨n, -, -, rfl⟩ := lineSearch_eq_some_iff.mp h
  exact mul_nonneg hab (pow_nonneg hrho n)

theorem direction_of_det_eq_zero {M : Mat} {g : Vec} (h : det M = 0) :
    direction M g = vneg g := by
  unfold direction solve2
  rw [if_pos h]

theorem direction_of_det_ne_zero {M : Mat} {g : Vec} (h : det M ≠ 0) :
    direction M g =
      vneg ((M.d * g.1 - M.b * g.2) / det M, (M.a * g.2 - M.c * g.1) / det M) := by
  unfold direction solve2
  rw [if_neg h]

theorem loop_zero (f : Vec → ℝ) (grad : Vec → Vec) (hess : Vec → Mat) (cfg : Config)
    (x : Vec) (pts : List Vec) (ss : List ℝ) :
    loop f grad hess cfg 0 x pts ss = some (x, pts, ss) := rfl

theorem loop_succ_small {f : Vec → ℝ} {grad : Vec → Vec} {hess : Vec → Mat} {cfg : Config}
    {fuel : ℕ} {x : Vec} {pts : List Vec} {ss : List ℝ}
    (hsm : norm2 (grad x) ≤ cfg.epsilon) :
    loop f grad hess cfg (fuel + 1) x pts ss = some (x, pts, ss) := by
  simp [loop, hsm]

theorem loop_succ_big_none {f : Vec → ℝ} {grad : Vec → Vec} {hess : Vec → Mat} {cfg : Config}
    {fuel : ℕ} {x : Vec} {pts : List Vec} {ss : List ℝ}
    (hbig : ¬ norm2 (grad x) ≤ cfg.epsilon) (hls : lsAt f grad hess cfg x = none) :
    loop f grad hess cfg (fuel + 1) x pts ss = none := by
  simp [loop, hbig, hls]

theorem loop_succ_big_some {f : Vec → ℝ} {grad : Vec → Vec} {hess : Vec → Mat} {cfg : Config}
    {fuel : ℕ} {x : Vec} {pts : List Vec} {ss : List ℝ} {al : ℝ}
    (hbig : ¬ norm2 (grad x) ≤ cfg.epsilon) (hls : lsAt f grad hess cfg x = some al) :
    loop f grad hess cfg (fuel + 1) x pts ss =
      loop f grad hess cfg fuel (stepAt grad hess x al)
        (pts ++ [stepAt grad hess x al]) (ss ++ [al]) := by
  simp [loop, hbig, hls]

theorem run_len_eq {f : Vec → ℝ} {grad : Vec → Vec} {hess : Vec → Mat} {cfg : Config}
    {x : Vec} {ps : List Vec} {ss : List ℝ} {xf : Vec}
    (hr : Run f grad hess cfg x ps ss xf) : ps.length = ss.length := by
  induction hr with
  | done => rfl
  | step _ _ _ _ _ _ _ _ ih => simp [ih]

theorem run_last_eq {f : Vec → ℝ} {grad : Vec → Vec} {hess : Vec → Mat} {cfg : Config}
    {x : Vec} {ps : List Vec} {ss : List ℝ} {xf : Vec}
    (hr : Run f grad hess cfg x ps ss xf) : xf = (x :: ps).getD ss.length v0 := by
  induction hr with
  | done => rfl
  | step _ _ _ _ _ _ _ _ ih => simpa using ih

theorem run_step_spec {f : Vec → ℝ} {grad : Vec → Vec} {hess : Vec → Mat} {cfg : Config}
    {x : Vec} {ps : List Vec} {ss : List ℝ} {xf : Vec}
    (hr : Run f grad hess cfg x ps ss xf) :
    ∀ k, k < ss.length →
      (¬ norm2 (grad ((x :: ps).getD k v0)) ≤ cfg.epsilon) ∧
      lsAt f grad hess cfg ((x :: ps).getD k v0) = some (ss.getD k 0) ∧
      (x :: ps).getD (k + 1) v0 = stepAt grad hess ((x :: ps).getD k v0) (ss.getD k 0) := by
  induction hr with
  | done => intro k hk; simp at hk
  | step y al ps' ss' yf hbig hls htail ih =>
      intro k hk
      cases k with
      | zero => exact ⟨by simpa using hbig, by simpa using hls, by simp⟩
      | succ k =>
          have hk' : k < ss'.length := by simpa using hk
          simpa using ih k hk'

theorem loop_sound {f : Vec → ℝ} {grad : Vec → Vec} {hess : Vec → Mat} {cfg : Config} :
    ∀ (fuel : ℕ) (x : Vec) (pts : List Vec) (ss : List ℝ) (xf : Vec)
      (ptsf : List Vec) (ssf : List ℝ),
      loop f grad hess cfg fuel x pts ss = some (xf, ptsf, ssf) →
      ∃ ps as, ptsf = pts ++ ps ∧ ssf = ss ++ as ∧ Run f grad hess cfg x ps as xf ∧
        (norm2 (grad xf) ≤ cfg.epsilon ∨ ps.length = fuel) := by
  intro fuel
  induction fuel with
  | zero =>
      intro x pts ss xf ptsf ssf hl
      rw [loop_zero] at hl
      simp only [Option.some.injEq, Prod.mk.injEq] at hl
      obtain ⟨rfl, rfl, rfl⟩ := hl
      exact ⟨[], [], by simp, by simp, Run.done x, Or.inr rfl⟩
  | succ n ih =>
      intro x pts ss xf ptsf ssf hl
      by_cases hsm : norm2 (grad x) ≤ cfg.epsilon
      · rw [loop_succ_small hsm] at hl
        simp only [Option.some.injEq, Prod.mk.injEq] at hl
        obtain ⟨rfl, rfl, rfl⟩ := hl
        exact ⟨[], [], by simp, by simp, Run.done x, Or.inl hsm⟩
      · cases hls : lsAt f grad hess cfg x with
        | none => rw [loop_succ_big_none hsm hls] at hl; exact absurd hl (by simp)
        | some al =>
            rw [loop_succ_big_some hsm hls] at hl
            obtain ⟨ps, as, hpts, hss, hrun, hstop⟩ := ih _ _ _ _ _ _ hl
            refine ⟨stepAt grad hess x al :: ps, al :: as, ?_, ?_,
              Run.step x al ps as xf hsm hls hrun, ?_⟩
            · simpa [List.append_assoc] using hpts
            · simpa [List.append_assoc] using hss
            · cases hstop with
              | inl hsf => exact Or.inl hsf
              | inr hlen => exact Or.inr (by simp [hlen])

theorem newtonLS_sound {f : Vec → ℝ} {grad : Vec → Vec} {hess : Vec → Mat} {cfg : Config}
    {x0 xf : Vec} {pts : List Vec} {ss : List ℝ}
    (hl : newtonLS f grad hess x0 cfg = some (xf, pts, ss)) :
    ∃ ps, pts = x0 :: ps ∧ Run f grad hess cfg x0 ps ss xf ∧
      (norm2 (grad xf) ≤ cfg.epsilon ∨ ps.length = cfg.max_iter.toNat) := by
  obtain ⟨ps, as, hpts, hss, hrun, hstop⟩ := loop_sound _ _ _ _ _ _ _ hl
  simp only [List.nil_append] at hss
  subst hss
  exact ⟨ps, by simpa using hpts, hrun, hstop⟩

end NLS

namespace NLS

theorem lineSearch_some_of_exists {f : Vec → ℝ} {x d : Vec} {slope c ab rho : ℝ}
    (h : ∃ n, armijoAt f x d slope c ab rho n) :
    ∃ al, lineSearch f x d slope c ab rho = some al := by
  classical
  refine ⟨ab * rho ^ Nat.find h, ?_⟩
  unfold lineSearch
  rw [dif_pos h]

theorem newtonLS_armijo {f : Vec → ℝ} {grad : Vec → Vec} {hess : Vec → Mat}
    {x0 xf : Vec} {cfg : Config} {pts : List Vec} {ss : List ℝ}
    (hrun : newtonLS f grad hess x0 cfg = some (xf, pts, ss)) :
    ∀ k, k < ss.length →
      f (pts.getD (k + 1) v0) ≤ f (pts.getD k v0) +
        cfg.c * ss.getD k 0 * slopeAt grad hess (pts.getD k v0) := by
  obtain ⟨ps, rfl, hrun', -⟩ := newtonLS_sound hrun
  intro k hk
  obtain ⟨-, hls, hstep⟩ := run_step_spec hrun' k hk
  unfold lsAt at hls
  have h := lineSearch_some_armijo hls
  rw [hstep]
  exact h

theorem newtonLS_steps_nonneg {f : Vec → ℝ} {grad : Vec → Vec} {hess : Vec → Mat}
    {x0 xf : Vec} {cfg : Config} {pts : List Vec} {ss : List ℝ}
    (hab : 0 ≤ cfg.alpha_bar) (hrho : 0 ≤ cfg.rho)
    (hrun : newtonLS f grad hess x0 cfg = some (xf, pts, ss)) :
    ∀ k, k < ss.length → 0 ≤ ss.getD k 0 := by
  obtain ⟨ps, rfl, hrun', -⟩ := newtonLS_sound hrun
  intro k hk
  obtain ⟨-, hls, -⟩ := run_step_spec hrun' k hk
  unfold lsAt at hls
  exact lineSearch_some_nonneg hab hrho hls

theorem newtonLS_length {f : Vec → ℝ} {grad : Vec → Vec} {hess : Vec → Mat}
    {x0 xf : Vec} {cfg : Config} {pts : List Vec} {ss : List ℝ}
    (hrun : newtonLS f grad hess x0 cfg = some (xf, pts, ss)) :
    pts.length = ss.length + 1 := by
  obtain ⟨ps, rfl, hrun', -⟩ := newtonLS_sound hrun
  simp [run_len_eq hrun']

theorem loop_total {f : Vec → ℝ} {grad : Vec → Vec} {hess : Vec → Mat} {cfg : Config}
    (hls : ∀ x : Vec, ∃ n,
      armijoAt f x (dirAt grad hess x) (slopeAt grad hess x) cfg.c cfg.alpha_bar cfg.rho n) :
    ∀ (fuel : ℕ) (x : Vec) (pts : List Vec) (ss : List ℝ),
      ∃ r, loop f grad hess cfg fuel x pts ss = some r := by
  intro fuel
  induction fuel with
  | zero => intro x pts ss; exact ⟨(x, pts, ss), loop_zero f grad hess cfg x pts ss⟩
  | succ n ih =>
      intro x pts ss
      by_cases hsm : norm2 (grad x) ≤ cfg.epsilon
      · exact ⟨(x, pts, ss), loop_succ_small hsm⟩
      · obtain ⟨al, hal⟩ := lineSearch_some_of_exists (hls x)
        have hlsx : lsAt f grad hess cfg x = some al := hal
        obtain ⟨r, hr⟩ := ih (stepAt grad hess x al)
          (pts ++ [stepAt grad hess x al]) (ss ++ [al])
        exact ⟨r, by rw [loop_succ_big_some hsm hlsx]; exact hr⟩

end NLS

open NLS in
/-- Claim C1: for every completed run of newton_method_with_line_search and every
accepted iterate transition recorded in its outputs, the Armijo sufficient-decrease
condition f(x_k + alpha_k d_k) <= f(x_k) + c * alpha_k * (gradient_f(x_k) . d_k)
holds, where d_k is the search direction recomputed at the recorded iterate. -/
theorem armijo_invariant_holds {x0 xf : Vec} {cfg : Config} {pts : List Vec} {ss : List ℝ}
    (hrun : newton_method_with_line_search x0 cfg = some (xf, pts, ss)) :
    ∀ k, k < ss.length →
      fObj (pts.getD (k + 1) v0) ≤ fObj (pts.getD k v0) +
        cfg.c * ss.getD k 0 *
          dot (gradient_f (pts.getD k v0)) (dirAt gradient_f hessian_f (pts.getD k v0)) := by
  exact newtonLS_armijo hrun

open NLS in
/-- Claim C2 (amended): provided every backtracking line search that can arise
terminates (some exponent satisfies the Armijo test), a run of newtonLS returns,
and it stops exactly at the first iterate passing the gradient-norm test or,
failing that, when the iteration budget is exhausted: no earlier recorded
iterate passes the test, and the final one passes it unless the step count
equals the budget. The unamended claim is refuted by line_search_divergence. -/
theorem termination_characterization (f : Vec → ℝ) (grad : Vec → Vec) (hess : Vec → Mat)
    (x0 : Vec) (cfg : Config)
    (hls : ∀ x : Vec, ∃ n,
      armijoAt f x (dirAt grad hess x) (slopeAt grad hess x) cfg.c cfg.alpha_bar cfg.rho n) :
    ∃ xf pts ss, newtonLS f grad hess x0 cfg = some (xf, pts, ss) ∧
      (norm2 (grad xf) ≤ cfg.epsilon ∨ ss.length = cfg.max_iter.toNat) ∧
      ∀ k, k < ss.length → ¬ norm2 (grad (pts.getD k v0)) ≤ cfg.epsilon := by
  obtain ⟨⟨xf, ptsf, ssf⟩, hr⟩ := loop_total hls cfg.max_iter.toNat x0 [x0] []
  have hrun : newtonLS f grad hess x0 cfg = some (xf, ptsf, ssf) := hr
  obtain ⟨ps, hpts, hrun', hstop⟩ := newtonLS_sound hrun
  refine ⟨xf, ptsf, ssf, hrun, ?_, ?_⟩
  · cases hstop with
    | inl h => exact Or.inl h
    | inr h => exact Or.inr (by rw [← run_len_eq hrun']; exact h)
  · intro k hk
    subst hpts
    exact (run_step_spec hrun' k hk).1

open NLS in
/-- Claim C2 counterexample: with the source's default (valid) configuration,
a constant-zero objective whose supplied gradient is the constant (1,0) and
whose supplied Hessian is the zero matrix makes the very first backtracking
loop run forever (no candidate step ever satisfies the Armijo test), so the
run as a whole never terminates, refuting unconditional termination. -/
theorem line_search_divergence : ValidConfig defaultConfig ∧
    newtonLS (fun _ => (0 : ℝ)) (fun _ => ((1 : ℝ), (0 : ℝ))) (fun _ => ⟨0, 0, 0, 0⟩)
      ((0 : ℝ), (0 : ℝ)) defaultConfig = none := by
  constructor
  · refine ⟨by norm_num [defaultConfig], by norm_num [defaultConfig], by norm_num [defaultConfig],
      by norm_num [defaultConfig], by norm_num [defaultConfig], by norm_num [defaultConfig],
      by norm_num [defaultConfig]⟩
  · have hbig : ¬ norm2 ((fun _ : Vec => ((1 : ℝ), (0 : ℝ))) ((0 : ℝ), (0 : ℝ))) ≤
        defaultConfig.epsilon := by
      rw [norm2_le_iff]
      rintro ⟨-, h⟩
      norm_num [normSq, dot, defaultConfig] at h
    have hnone : lsAt (fun _ => (0 : ℝ)) (fun _ => ((1 : ℝ), (0 : ℝ)))
        (fun _ => (⟨0, 0, 0, 0⟩ : Mat)) defaultConfig ((0 : ℝ), (0 : ℝ)) = none := by
      unfold lsAt
      rw [lineSearch_eq_none_iff]
      intro n
      unfold armijoAt
      have hdir : dirAt (fun _ : Vec => ((1 : ℝ), (0 : ℝ)))
          (fun _ : Vec => (⟨0, 0, 0, 0⟩ : Mat)) ((0 : ℝ), (0 : ℝ)) = (-1, 0) := by
        unfold dirAt
        rw [direction_of_det_eq_zero (by norm_num [det])]
        norm_num [vneg]
      rw [hdir]
      have hpow : (0 : ℝ) < (defaultConfig.rho) ^ n :=
        pow_pos (by norm_num [defaultConfig]) n
      simp only [not_le]
      have hslope : slopeAt (fun _ : Vec => ((1 : ℝ), (0 : ℝ)))
          (fun _ : Vec => (⟨0, 0, 0, 0⟩ : Mat)) ((0 : ℝ), (0 : ℝ)) = -1 := by
        unfold slopeAt
        rw [hdir]
        norm_num [dot]
      rw [hslope]
      have hc : defaultConfig.c = 1 / 10 := rfl
      have hab : defaultConfig.alpha_bar = 1 := rfl
      rw [hc, hab]
      nlinarith [hpow]
    show loop _ _ _ _ ((100 : ℤ).toNat) _ _ _ = none
    rw [show ((100 : ℤ)).toNat = 99 + 1 from rfl]
    exact loop_succ_big_none hbig hnone

open NLS in
/-- Claim C4: whenever the Hessian recorded at an accepted iterate of a completed
run of newton_method_with_line_search is singular, that iteration used the
steepest-descent fallback: the recorded transition is exactly
x_{k+1} = x_k + alpha_k * (-gradient_f(x_k)), colinear with the negative
gradient, and the run continued normally rather than surfacing a failure. -/
theorem singular_hessian_fallback {x0 xf : Vec} {cfg : Config} {pts : List Vec} {ss : List ℝ}
    (hrun : newton_method_with_line_search x0 cfg = some (xf, pts, ss)) :
    ∀ k, k < ss.length → det (hessian_f (pts.getD k v0)) = 0 →
      pts.getD (k + 1) v0 =
        vadd (pts.getD k v0) (smul (ss.getD k 0) (vneg (gradient_f (pts.getD k v0)))) := by
  obtain ⟨ps, rfl, hrun', -⟩ := newtonLS_sound hrun
  intro k hk hdet
  obtain ⟨-, -, hstep⟩ := run_step_spec hrun' k hk
  rw [hstep]
  unfold stepAt dirAt
  rw [direction_of_det_eq_zero hdet]

open NLS in
/-- Claim C5 counterexample: the configuration with max_iter = 0 is invalid in
the spec's sense, yet newton_method_with_line_search does not reject it with
any error: it completes normally, returning the start point together with a
nonempty iterate list, so no ConfigurationError path exists in the code. -/
theorem no_validation_cex :
    ¬ ValidConfig ⟨1, 1 / 2, 1 / 10, 1 / 10000, 0⟩ ∧
    newton_method_with_line_search ((-3 : ℝ), (-3 : ℝ)) ⟨1, 1 / 2, 1 / 10, 1 / 10000, 0⟩ =
      some (((-3 : ℝ), (-3 : ℝ)), [((-3 : ℝ), (-3 : ℝ))], []) := by
  constructor
  · rintro ⟨-, -, -, -, -, -, h⟩
    exact absurd h (by norm_num)
  · rfl

open NLS in
/-- Claim C5 (amended): newton_method_with_line_search performs no configuration
validation and has no ConfigurationError: every parameter combination starts a
run; in particular any max_iter <= 0 yields a run of zero iterations that
returns the start point with iterate trace [x0] and empty step trace. -/
theorem no_validation_runs {x0 : Vec} {cfg : Config} (h : cfg.max_iter ≤ 0) :
    newton_method_with_line_search x0 cfg = some (x0, [x0], []) := by
  unfold newton_method_with_line_search newtonLS
  rw [Int.toNat_of_nonpos h]
  exact loop_zero _ _ _ _ _ _ _

open NLS in
/-- Claim C5 (amended) witness at a concrete invalid configuration. -/
theorem no_validation_runs_witness :
    newton_method_with_line_search ((1 : ℝ), (2 : ℝ)) ⟨1, 1 / 2, 1 / 10, 1 / 10000, -5⟩ =
      some (((1 : ℝ), (2 : ℝ)), [((1 : ℝ), (2 : ℝ))], []) :=
  no_validation_runs (by norm_num)

open NLS in
/-- Claim C8: the minimizer is deterministic: two runs on identical objective,
gradient, Hessian, starting point and configuration return identical results,
iterate sequences and step-size traces. -/
theorem minimizer_deterministic {f1 f2 : Vec → ℝ} {g1 g2 : Vec → Vec}
    {h1 h2 : Vec → Mat} {x1 x2 : Vec} {cfg1 cfg2 : Config}
    (hf : f1 = f2) (hg : g1 = g2) (hh : h1 = h2) (hx : x1 = x2) (hcfg : cfg1 = cfg2) :
    newtonLS f1 g1 h1 x1 cfg1 = newtonLS f2 g2 h2 x2 cfg2 := by
  subst hf hg hh hx hcfg
  rfl

open NLS in
/-- Claim C8 witness: determinism instantiated at the source's objective,
starting point (-3,-3) and default configuration. -/
theorem minimizer_deterministic_witness :
    newtonLS fObj gradient_f hessian_f ((-3 : ℝ), (-3 : ℝ)) defaultConfig =
      newtonLS fObj gradient_f hessian_f ((-3 : ℝ), (-3 : ℝ)) defaultConfig :=
  minimizer_deterministic rfl rfl rfl rfl rfl

namespace NLS

theorem gradA : gradient_f ((-2 : ℝ), (-7/4 : ℝ)) = (105/4, 369/16) := by
  unfold gradient_f
  norm_num

theorem dirA : dirAt gradient_f hessian_f ((-2 : ℝ), (-7/4 : ℝ)) = (10953/5908, 15513/5908) := by
  unfold dirAt
  rw [direction_of_det_ne_zero (by unfold det hessian_f; norm_num)]
  unfold vneg det hessian_f
  rw [gradA]
  norm_num

theorem bigA : ¬ norm2 (gradient_f ((-2 : ℝ), (-7/4 : ℝ))) ≤
    (⟨1, 1/2, 1/10, 1/10000, 1⟩ : Config).epsilon := by
  intro h
  have h2 := (norm2_le_iff.mp h).2
  rw [gradA] at h2
  norm_num [normSq, dot] at h2

theorem lsA : lsAt fObj gradient_f hessian_f ⟨1, 1/2, 1/10, 1/10000, 1⟩
    ((-2 : ℝ), (-7/4 : ℝ)) = some 1 := by
  unfold lsAt
  apply lineSearch_eq_some_iff.mpr
  refine ⟨0, ?_, by intro m hm; exact absurd hm (by omega), by norm_num⟩
  unfold armijoAt slopeAt
  rw [dirA, gradA]
  unfold fObj vadd smul dot
  norm_num

theorem evalRunA :
    newton_method_with_line_search ((-2 : ℝ), (-7/4 : ℝ)) ⟨1, 1/2, 1/10, 1/10000, 1⟩ =
      some (((-863/5908 : ℝ), (2587/2954 : ℝ)),
        [((-2 : ℝ), (-7/4 : ℝ)), ((-863/5908 : ℝ), (2587/2954 : ℝ))], [(1 : ℝ)]) := by
  unfold newton_method_with_line_search newtonLS
  rw [show ((⟨1, 1/2, 1/10, 1/10000, 1⟩ : Config)).max_iter.toNat = 0 + 1 from rfl]
  rw [loop_succ_big_some bigA lsA, loop_zero]
  have hstep : stepAt gradient_f hessian_f ((-2 : ℝ), (-7/4 : ℝ)) 1 =
      ((-863/5908 : ℝ), (2587/2954 : ℝ)) := by
    unfold stepAt
    rw [dirA]
    unfold vadd smul
    norm_num
  rw [hstep]
  simp

theorem gradC : gradient_f ((-4/3 : ℝ), (2/3 : ℝ)) = (128/27, -748/27) := by
  unfold gradient_f
  norm_num

theorem detC : det (hessian_f ((-4/3 : ℝ), (2/3 : ℝ))) = 0 := by
  unfold det hessian_f
  norm_num

theorem dirC : dirAt gradient_f hessian_f ((-4/3 : ℝ), (2/3 : ℝ)) = (-128/27, 748/27) := by
  unfold dirAt
  rw [direction_of_det_eq_zero detC, gradC]
  unfold vneg
  norm_num

theorem bigC : ¬ norm2 (gradient_f ((-4/3 : ℝ), (2/3 : ℝ))) ≤
    (⟨1/1024, 1/2, 1/10, 1/10000, 1⟩ : Config).epsilon := by
  intro h
  have h2 := (norm2_le_iff.mp h).2
  rw [gradC] at h2
  norm_num [normSq, dot] at h2

theorem lsC : lsAt fObj gradient_f hessian_f ⟨1/1024, 1/2, 1/10, 1/10000, 1⟩
    ((-4/3 : ℝ), (2/3 : ℝ)) = some (1/1024) := by
  unfold lsAt
  apply lineSearch_eq_some_iff.mpr
  refine ⟨0, ?_, by intro m hm; exact absurd hm (by omega), by norm_num⟩
  unfold armijoAt slopeAt
  rw [dirC, gradC]
  unfold fObj vadd smul dot
  norm_num

theorem evalRunC :
    newton_method_with_line_search ((-4/3 : ℝ), (2/3 : ℝ)) ⟨1/1024, 1/2, 1/10, 1/10000, 1⟩ =
      some (((-289/216 : ℝ), (4795/6912 : ℝ)),
        [((-4/3 : ℝ), (2/3 : ℝ)), ((-289/216 : ℝ), (4795/6912 : ℝ))], [(1/1024 : ℝ)]) := by
  unfold newton_method_with_line_search newtonLS
  rw [show ((⟨1/1024, 1/2, 1/10, 1/10000, 1⟩ : Config)).max_iter.toNat = 0 + 1 from rfl]
  rw [loop_succ_big_some bigC lsC, loop_zero]
  have hstep : stepAt gradient_f hessian_f ((-4/3 : ℝ), (2/3 : ℝ)) (1/1024) =
      ((-289/216 : ℝ), (4795/6912 : ℝ)) := by
    unfold stepAt
    rw [dirC]
    unfold vadd smul
    norm_num
  rw [hstep]
  simp

theorem smallB : norm2 (gradient_f ((-3 : ℝ), (-3 : ℝ))) ≤
    (⟨1, 1/2, 1/10, 200, 5⟩ : Config).epsilon := by
  apply norm2_le_iff.mpr
  constructor
  · norm_num
  · unfold normSq dot gradient_f
    norm_num

theorem evalRunB :
    newton_method_with_line_search ((-3 : ℝ), (-3 : ℝ)) ⟨1, 1/2, 1/10, 200, 5⟩ =
      some (((-3 : ℝ), (-3 : ℝ)), [((-3 : ℝ), (-3 : ℝ))], []) := by
  unfold newton_method_with_line_search newtonLS
  rw [show ((⟨1, 1/2, 1/10, 200, 5⟩ : Config)).max_iter.toNat = 4 + 1 from rfl]
  exact loop_succ_small smallB

end NLS

open NLS in
/-- Claim C1 witness: the Armijo invariant evaluated on the concrete one-step
run from (-2, -7/4) with step size 1. -/
theorem armijo_invariant_holds_witness :
    fObj ([((-2 : ℝ), (-7/4 : ℝ)), ((-863/5908 : ℝ), (2587/2954 : ℝ))].getD 1 v0) ≤
      fObj ([((-2 : ℝ), (-7/4 : ℝ)), ((-863/5908 : ℝ), (2587/2954 : ℝ))].getD 0 v0) +
        (1/10 : ℝ) * ([(1 : ℝ)].getD 0 0) *
          dot (gradient_f ([((-2 : ℝ), (-7/4 : ℝ)),
              ((-863/5908 : ℝ), (2587/2954 : ℝ))].getD 0 v0))
            (dirAt gradient_f hessian_f ([((-2 : ℝ), (-7/4 : ℝ)),
              ((-863/5908 : ℝ), (2587/2954 : ℝ))].getD 0 v0)) :=
  armijo_invariant_holds evalRunA 0 (by norm_num)

open NLS in
/-- Claim C2 (amended) witness: for the linear objective v.1 with constant
supplied gradient (1,0) and zero Hessian, every backtracking search accepts
its first candidate, so the run from the origin under the default
configuration terminates with the budget/first-success characterization. -/
theorem termination_characterization_witness :
    ∃ xf pts ss,
      newtonLS (fun v : Vec => v.1) (fun _ => ((1 : ℝ), (0 : ℝ))) (fun _ => ⟨0, 0, 0, 0⟩)
        ((0 : ℝ), (0 : ℝ)) defaultConfig = some (xf, pts, ss) ∧
      (norm2 ((fun _ : Vec => ((1 : ℝ), (0 : ℝ))) xf) ≤ defaultConfig.epsilon ∨
        ss.length = defaultConfig.max_iter.toNat) ∧
      ∀ k, k < ss.length →
        ¬ norm2 ((fun _ : Vec => ((1 : ℝ), (0 : ℝ))) (pts.getD k v0)) ≤ defaultConfig.epsilon := by
  apply termination_characterization
  intro x
  refine ⟨0, ?_⟩
  unfold armijoAt slopeAt
  have hdir : dirAt (fun _ : Vec => ((1 : ℝ), (0 : ℝ)))
      (fun _ : Vec => (⟨0, 0, 0, 0⟩ : Mat)) x = (-1, 0) := by
    unfold dirAt
    rw [direction_of_det_eq_zero (by unfold det; norm_num)]
    unfold vneg
    norm_num
  rw [hdir]
  unfold vadd smul dot
  norm_num [defaultConfig]
  linarith

open NLS in
/-- Claim C3 counterexample: with the valid configuration
(alpha_bar 1, rho 1/2, c 1/10, epsilon 1/10000, max_iter 1) and start
(-2, -7/4), the run completes and its single accepted Newton step strictly
increases the objective, so the objective trace is not non-increasing. -/
theorem monotone_decrease_cex :
    ValidConfig ⟨1, 1/2, 1/10, 1/10000, 1⟩ ∧
    newton_method_with_line_search ((-2 : ℝ), (-7/4 : ℝ)) ⟨1, 1/2, 1/10, 1/10000, 1⟩ =
      some (((-863/5908 : ℝ), (2587/2954 : ℝ)),
        [((-2 : ℝ), (-7/4 : ℝ)), ((-863/5908 : ℝ), (2587/2954 : ℝ))], [(1 : ℝ)]) ∧
    fObj ((-2 : ℝ), (-7/4 : ℝ)) < fObj ((-863/5908 : ℝ), (2587/2954 : ℝ)) := by
  refine ⟨⟨by norm_num, by norm_num, by norm_num, by norm_num, by norm_num, by norm_num,
    by norm_num⟩, evalRunA, ?_⟩
  unfold fObj
  norm_num

open NLS in
/-- Claim C3 (amended): the objective trace of a completed run is non-increasing
provided every accepted search direction is a non-ascent direction
(gradient_f(x_k) . d_k <= 0 at each recorded iterate); the unamended claim is
refuted by monotone_decrease_cex, where the Newton direction is an ascent
direction and the Armijo test still accepts it. -/
theorem monotone_decrease_of_descent {x0 xf : Vec} {cfg : Config}
    {pts : List Vec} {ss : List ℝ}
    (hrun : newton_method_with_line_search x0 cfg = some (xf, pts, ss))
    (hc : 0 ≤ cfg.c) (hab : 0 ≤ cfg.alpha_bar) (hrho : 0 ≤ cfg.rho)
    (hdesc : ∀ k, k < ss.length → slopeAt gradient_f hessian_f (pts.getD k v0) ≤ 0) :
    ∀ i j, i ≤ j → j < pts.length → fObj (pts.getD j v0) ≤ fObj (pts.getD i v0) := by
  have hlen := newtonLS_length hrun
  have hadj : ∀ k, k < ss.length → fObj (pts.getD (k + 1) v0) ≤ fObj (pts.getD k v0) := by
    intro k hk
    have h1 := newtonLS_armijo hrun k hk
    have h2 := newtonLS_steps_nonneg hab hrho hrun k hk
    have h3 := hdesc k hk
    nlinarith [mul_nonneg hc h2]
  have key : ∀ (n i : ℕ), i + n < pts.length →
      fObj (pts.getD (i + n) v0) ≤ fObj (pts.getD i v0) := by
    intro n
    induction n with
    | zero => intro i _; simp
    | succ m ih =>
        intro i hi
        have hstep : i + m < ss.length := by omega
        calc fObj (pts.getD (i + (m + 1)) v0)
            = fObj (pts.getD ((i + m) + 1) v0) := by rw [show i + (m + 1) = (i + m) + 1 by omega]
          _ ≤ fObj (pts.getD (i + m) v0) := hadj _ hstep
          _ ≤ fObj (pts.getD i v0) := ih i (by omega)
  intro i j hij hj
  have h := key (j - i) i (by omega)
  rwa [show i + (j - i) = j by omega] at h

open NLS in
/-- Claim C3 (amended) witness: on the one-step fallback run from (-4/3, 2/3)
the accepted direction is the negative gradient, a non-ascent direction, and
the objective indeed does not increase. -/
theorem monotone_decrease_of_descent_witness :
    fObj ([((-4/3 : ℝ), (2/3 : ℝ)), ((-289/216 : ℝ), (4795/6912 : ℝ))].getD 1 v0) ≤
      fObj ([((-4/3 : ℝ), (2/3 : ℝ)), ((-289/216 : ℝ), (4795/6912 : ℝ))].getD 0 v0) := by
  have h := monotone_decrease_of_descent evalRunC (by norm_num) (by norm_num) (by norm_num)
    (by
      intro k hk
      have hk0 : k = 0 := by simpa using hk
      subst hk0
      show slopeAt gradient_f hessian_f
        ([((-4/3 : ℝ), (2/3 : ℝ)), ((-289/216 : ℝ), (4795/6912 : ℝ))].getD 0 v0) ≤ 0
      unfold slopeAt
      rw [show ([((-4/3 : ℝ), (2/3 : ℝ)), ((-289/216 : ℝ), (4795/6912 : ℝ))].getD 0 v0) =
        ((-4/3 : ℝ), (2/3 : ℝ)) from rfl, dirC, gradC]
      unfold dot
      norm_num)
  exact h 0 1 (by omega) (by norm_num)

open NLS in
/-- Claim C4 witness: on the run from (-4/3, 2/3), where hessian_f is exactly
singular, the recorded transition is the steepest-descent step
x1 = x0 + (1/1024) * (-gradient_f x0). -/
theorem singular_hessian_fallback_witness :
    ([((-4/3 : ℝ), (2/3 : ℝ)), ((-289/216 : ℝ), (4795/6912 : ℝ))].getD 1 v0) =
      vadd ([((-4/3 : ℝ), (2/3 : ℝ)), ((-289/216 : ℝ), (4795/6912 : ℝ))].getD 0 v0)
        (smul ([(1/1024 : ℝ)].getD 0 0)
          (vneg (gradient_f ([((-4/3 : ℝ), (2/3 : ℝ)),
            ((-289/216 : ℝ), (4795/6912 : ℝ))].getD 0 v0)))) :=
  singular_hessian_fallback evalRunC 0 (by norm_num) (by exact detC)

open NLS in
/-- Claim C6: in every completed run the stopping check contributes no step
entry: the points list has exactly one more entry than the step-size list,
its first entry is the start x0 and its last entry is the returned final
vector. -/
theorem trace_shape {x0 xf : Vec} {cfg : Config} {pts : List Vec} {ss : List ℝ}
    (hrun : newton_method_with_line_search x0 cfg = some (xf, pts, ss)) :
    pts.length = ss.length + 1 ∧ pts.getD 0 v0 = x0 ∧ pts.getD ss.length v0 = xf := by
  obtain ⟨ps, rfl, hrun', -⟩ := newtonLS_sound hrun
  refine ⟨by simp [run_len_eq hrun'], by simp, ?_⟩
  exact (run_last_eq hrun').symm

open NLS in
/-- Claim C6 witness: trace shape on the immediate-stop run from (-3,-3) with
a large tolerance. -/
theorem trace_shape_witness :
    ([((-3 : ℝ), (-3 : ℝ))].length = ([] : List ℝ).length + 1) ∧
    ([((-3 : ℝ), (-3 : ℝ))].getD 0 v0 = ((-3 : ℝ), (-3 : ℝ))) ∧
    ([((-3 : ℝ), (-3 : ℝ))].getD ([] : List ℝ).length v0 = ((-3 : ℝ), (-3 : ℝ))) :=
  trace_shape evalRunB

namespace HW4

theorem log_two_pos : 0 < Real.log 2 := Real.log_pos (by norm_num)

theorem fpp_pos (x : ℝ) : 0 < f_double_prime x :=
  mul_pos (Real.rpow_pos_of_pos (by norm_num) x) (pow_pos log_two_pos 2)

theorem loop4_zero (tol : ℝ) (k : ℕ) (x : ℝ) (acc : List Entry) :
    loop4 tol 0 k x acc = (x, acc) := rfl

theorem loop4_succ_stop {tol : ℝ} {fuel k : ℕ} {x : ℝ} {acc : List Entry}
    (h : |f_prime x| < tol) :
    loop4 tol (fuel + 1) k x acc = (x, acc ++ [mkEntry k x]) := by
  simp [loop4, h]

theorem loop4_succ_go {tol : ℝ} {fuel k : ℕ} {x : ℝ} {acc : List Entry}
    (h : ¬ |f_prime x| < tol) :
    loop4 tol (fuel + 1) k x acc = loop4 tol fuel (k + 1) (newtonMap x) (acc ++ [mkEntry k x]) := by
  simp [loop4, h]

theorem fp_eq_exp (x : ℝ) : f_prime x = Real.exp (Real.log 2 * x) * Real.log 2 - 1 := by
  unfold f_prime
  rw [Real.rpow_def_of_pos (by norm_num : (0 : ℝ) < 2)]
  ring

theorem fpp_eq_exp (x : ℝ) : f_double_prime x = Real.exp (Real.log 2 * x) * Real.log 2 ^ 2 := by
  unfold f_double_prime
  rw [Real.rpow_def_of_pos (by norm_num : (0 : ℝ) < 2)]

theorem fp_xstar : f_prime xstar = 0 := by
  unfold f_prime xstar
  have h2 : (2 : ℝ) ^ (-Real.logb 2 (Real.log 2)) = (Real.log 2)⁻¹ := by
    rw [Real.rpow_neg (by norm_num : (0 : ℝ) ≤ 2),
      Real.rpow_logb (by norm_num) (by norm_num) log_two_pos]
  rw [h2, inv_mul_cancel₀ (ne_of_gt log_two_pos)]
  ring

theorem newtonMap_xstar : newtonMap xstar = xstar := by
  unfold newtonMap
  rw [fp_xstar]
  simp

theorem loop4_fixed {x : ℝ} (hfp : f_prime x = 0) :
    ∀ (fuel k : ℕ) (acc : List Entry),
      loop4 0 fuel k x acc = (x, acc ++ (List.range fuel).map (fun i => mkEntry (k + i) x)) := by
  intro fuel
  induction fuel with
  | zero => intro k acc; simp [loop4_zero]
  | succ n ih =>
      intro k acc
      have hnot : ¬ |f_prime x| < 0 := by rw [hfp]; simp
      have hmapx : newtonMap x = x := by unfold newtonMap; rw [hfp]; simp
      rw [loop4_succ_go hnot, hmapx, ih]
      rw [List.append_assoc]
      refine congrArg (fun l => (x, acc ++ l)) ?_
      rw [List.range_succ_eq_map]
      simp only [List.map_cons, List.map_map, List.singleton_append, Nat.add_zero]
      refine congrArg (fun l => mkEntry k x :: l) ?_
      apply List.map_congr_left
      intro a _
      simp only [Function.comp]
      rw [show k + 1 + a = k + (a + 1) by omega]

theorem fp_strict_conv {a b : ℝ} (hab : a ≠ b) :
    f_prime a + f_double_prime a * (b - a) < f_prime b := by
  rw [fp_eq_exp, fp_eq_exp, fpp_eq_exp]
  have hL : 0 < Real.log 2 := log_two_pos
  have ht : Real.log 2 * (b - a) ≠ 0 :=
    mul_ne_zero (ne_of_gt hL) (sub_ne_zero.mpr (Ne.symm hab))
  have hexp := Real.add_one_lt_exp ht
  have hEa : 0 < Real.exp (Real.log 2 * a) := Real.exp_pos _
  have hsplit : Real.exp (Real.log 2 * b) =
      Real.exp (Real.log 2 * a) * Real.exp (Real.log 2 * (b - a)) := by
    rw [← Real.exp_add]
    ring_nf
  rw [hsplit]
  have h2 : Real.exp (Real.log 2 * a) * (Real.log 2 * (b - a) + 1) <
      Real.exp (Real.log 2 * a) * Real.exp (Real.log 2 * (b - a)) :=
    (mul_lt_mul_left hEa).mpr hexp
  nlinarith [mul_lt_mul_of_pos_right h2 hL]

theorem fp_strictMono : StrictMono f_prime := by
  intro a b hab
  have h := fp_strict_conv (ne_of_lt hab)
  have hpp : 0 < f_double_prime a * (b - a) := mul_pos (fpp_pos a) (by linarith)
  linarith

theorem newtonMap_gt {x : ℝ} (hx : x ≠ xstar) : xstar < newtonMap x := by
  have hconv := @fp_strict_conv x xstar hx
  rw [fp_xstar] at hconv
  unfold newtonMap
  have hpp := fpp_pos x
  have h1 : (xstar - x) * f_double_prime x < -f_prime x := by nlinarith [hconv]
  have h2 : xstar - x < -f_prime x / f_double_prime x := (lt_div_iff₀ hpp).mpr h1
  rw [neg_div] at h2
  linarith

theorem newtonMap_lt {x : ℝ} (hx : xstar < x) : newtonMap x < x := by
  have hfp : 0 < f_prime x := by
    have h := fp_strictMono hx
    rwa [fp_xstar] at h
  unfold newtonMap
  have hdiv : 0 < f_prime x / f_double_prime x := div_pos hfp (fpp_pos x)
  linarith

theorem loop4_run (tol x0 : ℝ) :
    ∀ (m j : ℕ) (acc : List Entry),
      (∀ k, k < m → ¬ |f_prime (orbit x0 (j + k))| < tol) →
      loop4 tol m j (orbit x0 j) acc =
        (orbit x0 (j + m),
          acc ++ (List.range m).map (fun i => mkEntry (j + i) (orbit x0 (j + i)))) := by
  intro m
  induction m with
  | zero => intro j acc _; simp [loop4_zero]
  | succ n ih =>
      intro j acc h
      have h0 : ¬ |f_prime (orbit x0 j)| < tol := by
        have := h 0 (by omega)
        simpa using this
      rw [loop4_succ_go h0]
      have hnext : newtonMap (orbit x0 j) = orbit x0 (j + 1) := rfl
      rw [hnext, ih (j + 1) _ ?side]
      case side =>
        intro k hk
        have := h (k + 1) (by omega)
        rwa [show j + (k + 1) = j + 1 + k by omega] at this
      refine congrArg₂ (fun y l => (y, l)) (by rw [show j + 1 + n = j + (n + 1) by omega]) ?_
      rw [List.append_assoc]
      refine congrArg (fun l => acc ++ l) ?_
      rw [List.range_succ_eq_map]
      simp only [List.map_cons, List.map_map, List.singleton_append, Nat.add_zero]
      refine congrArg (fun l => mkEntry j (orbit x0 j) :: l) ?_
      apply List.map_congr_left
      intro a _
      simp only [Function.comp]
      rw [show j + 1 + a = j + (a + 1) by omega]

theorem orbit_ne_final {x0 tol : ℝ} {m : ℕ} (htol : 0 < tol)
    (hexh : ∀ k, k < m → ¬ |f_prime (orbit x0 k)| < tol) :
    ∀ i, i < m → orbit x0 i ≠ orbit x0 m := by
  have hne : ∀ k, k < m → orbit x0 k ≠ xstar := by
    intro k hk heq
    have h := hexh k hk
    rw [heq, fp_xstar] at h
    simp [htol] at h
  have hgt : ∀ k, k < m → xstar < orbit x0 (k + 1) := fun k hk => newtonMap_gt (hne k hk)
  have hdec : ∀ k, 1 ≤ k → k < m → orbit x0 (k + 1) < orbit x0 k := by
    intro k hk1 hkm
    have hx : xstar < orbit x0 k := by
      obtain ⟨j, rfl⟩ : ∃ j, k = j + 1 := ⟨k - 1, by omega⟩
      exact hgt j (by omega)
    exact newtonMap_lt hx
  have hchain : ∀ (d i : ℕ), 1 ≤ i → i + d ≤ m → 1 ≤ d → orbit x0 (i + d) < orbit x0 i := by
    intro d
    induction d with
    | zero => intro i _ _ h; omega
    | succ e ih =>
        intro i hi1 him _
        cases Nat.eq_zero_or_pos e with
        | inl h0 => subst h0; simpa using hdec i hi1 (by omega)
        | inr hpos =>
            have h1 := ih i hi1 (by omega) hpos
            have h2 : orbit x0 (i + e + 1) < orbit x0 (i + e) := hdec (i + e) (by omega) (by omega)
            calc orbit x0 (i + (e + 1)) = orbit x0 ((i + e) + 1) := by
                  rw [show i + (e + 1) = (i + e) + 1 by omega]
              _ < orbit x0 (i + e) := h2
              _ < orbit x0 i := h1
  intro i hi heq
  have hgtm : xstar < orbit x0 m := by
    obtain ⟨j, rfl⟩ : ∃ j, m = j + 1 := ⟨m - 1, by omega⟩
    exact hgt j (by omega)
  cases Nat.eq_zero_or_pos i with
  | inr hipos =>
      have h := hchain (m - i) i hipos (by omega) (by omega)
      rw [show i + (m - i) = m by omega, ← heq] at h
      exact lt_irrefl _ h
  | inl h0 =>
      subst h0
      by_cases hcase : xstar < orbit x0 0
      · have h1 : orbit x0 1 < orbit x0 0 := newtonMap_lt hcase
        cases Nat.lt_or_ge 1 m with
        | inl h1m =>
            have h := hchain (m - 1) 1 le_rfl (by omega) (by omega)
            rw [show 1 + (m - 1) = m by omega] at h
            rw [heq] at h1
            exact absurd (h.trans h1) (lt_irrefl _)
        | inr h1m =>
            have hm : m = 1 := by omega
            rw [hm] at heq
            rw [heq] at h1
            exact absurd h1 (lt_irrefl _)
      · push_neg at hcase
        rw [heq] at hcase
        exact absurd (lt_of_lt_of_le hgtm hcase) (lt_irrefl _)

end HW4

open HW4 in
/-- Claim C9: the fixed-step Newton update of HW4.py never divides by zero:
for every real x the denominator f_double_prime x = 2^x * (ln 2)^2 is strictly
positive, hence nonzero, so the update x - f_prime x / f_double_prime x is
well-defined at every iterate. -/
theorem second_derivative_pos :
    ∀ x : ℝ, 0 < f_double_prime x ∧ f_double_prime x ≠ 0 := fun x =>
  ⟨fpp_pos x, ne_of_gt (fpp_pos x)⟩

open HW4 in
/-- Claim C10 counterexample: starting newton_method at the exact stationary
point xstar with tol = 0, the tolerance test abs (f_prime x) < 0 never holds,
the budget of 10 iterations is exhausted, every entry records x = xstar, and
the returned solution xstar equals the x stored in the first entry, so the
solution does appear in the iterations record. -/
theorem budget_exhausted_cex :
    newton_method xstar 0 10 =
      (xstar, (List.range 10).map (fun k => mkEntry k xstar)) ∧
    ¬ |f_prime xstar| < 0 ∧
    ((List.range 10).map (fun k => mkEntry k xstar)).getD 0 default = mkEntry 0 xstar ∧
    (mkEntry 0 xstar).x = xstar := by
  refine ⟨?_, ?_, ?_, rfl⟩
  · unfold newton_method
    rw [loop4_fixed fp_xstar 10 0 []]
    simp
  · rw [fp_xstar]
    simp
  · simp

open HW4 in
/-- Claim C10 (amended): provided tol > 0, each entry of the iterations record
stores the iterate before that iteration's Newton update, and whenever the
budget of m iterations is exhausted without the tolerance test ever holding,
the returned solution is the post-update point of the final iteration and
appears in no entry of the record. The unamended claim (arbitrary tol) is
refuted by budget_exhausted_cex with tol = 0 at x0 = xstar. -/
theorem iterations_record_fresh {x0 tol : ℝ} {m : ℕ} (htol : 0 < tol)
    (hexh : ∀ k, k < m → ¬ |f_prime (orbit x0 k)| < tol) :
    (newton_method x0 tol m).2 =
      (List.range m).map (fun i => mkEntry i (orbit x0 i)) ∧
    (newton_method x0 tol m).1 = orbit x0 m ∧
    ∀ i, i < m → (mkEntry i (orbit x0 i)).x ≠ (newton_method x0 tol m).1 := by
  have hrun : newton_method x0 tol m =
      (orbit x0 m, (List.range m).map (fun i => mkEntry i (orbit x0 i))) := by
    unfold newton_method
    have h := loop4_run tol x0 m 0 [] (by simpa using hexh)
    simp only [Nat.zero_add, List.nil_append] at h
    exact h
  refine ⟨by rw [hrun], by rw [hrun], ?_⟩
  intro i hi
  rw [hrun]
  exact orbit_ne_final htol hexh i hi

open HW4 in
/-- Claim C10 (amended) witness: from x0 = 0 with tol = 1/4 and budget 1, the
tolerance test fails at the start, and the recorded start iterate differs
from the returned solution. -/
theorem iterations_record_fresh_witness :
    (mkEntry 0 (orbit 0 0)).x ≠ (newton_method 0 (1 / 4) 1).1 := by
  have hfp0 : f_prime 0 = Real.log 2 - 1 := by
    unfold f_prime
    rw [Real.rpow_zero]
    ring
  have hexh : ∀ k, k < 1 → ¬ |f_prime (orbit 0 k)| < (1 / 4 : ℝ) := by
    intro k hk
    have hk0 : k = 0 := by omega
    subst hk0
    show ¬ |f_prime (orbit 0 0)| < (1 / 4 : ℝ)
    have h0 : orbit (0 : ℝ) 0 = 0 := rfl
    rw [h0, hfp0, abs_of_neg (by linarith [Real.log_two_lt_d9])]
    intro h
    have := Real.log_two_lt_d9
    linarith
  exact (iterations_record_fresh (by norm_num) hexh).2.2 0 (by omega)

namespace HW4

theorem expPoly_le_exp {x : ℝ} (hx : 0 ≤ x) : expPoly x ≤ Real.exp x := by
  have h := Real.sum_le_exp_of_nonneg hx 8
  have hsum : (∑ i ∈ Finset.range 8, x ^ i / (Nat.factorial i : ℝ)) = expPoly x := by
    rw [Finset.sum_range_succ, Finset.sum_range_succ, Finset.sum_range_succ,
      Finset.sum_range_succ, Finset.sum_range_succ, Finset.sum_range_succ,
      Finset.sum_range_succ, Finset.sum_range_one]
    unfold expPoly
    norm_num [Nat.factorial]
  rwa [hsum] at h

theorem exp_le_expPoly_add {x : ℝ} (h0 : 0 ≤ x) (h1 : x ≤ 1) :
    Real.exp x ≤ expPoly x + x ^ 8 * 9 / 322560 := by
  have h := @Real.exp_bound' x h0 h1 8 (by norm_num)
  have hsum : (∑ i ∈ Finset.range 8, x ^ i / (Nat.factorial i : ℝ)) = expPoly x := by
    rw [Finset.sum_range_succ, Finset.sum_range_succ, Finset.sum_range_succ,
      Finset.sum_range_succ, Finset.sum_range_succ, Finset.sum_range_succ,
      Finset.sum_range_succ, Finset.sum_range_one]
    unfold expPoly
    norm_num [Nat.factorial]
  rw [hsum] at h
  calc Real.exp x ≤ expPoly x + x ^ 8 * (8 + 1) / ((Nat.factorial 8 : ℝ) * 8) := h
    _ = expPoly x + x ^ 8 * 9 / 322560 := by norm_num [Nat.factorial]

theorem exp_interval (ta tb : ℝ) {x a b Ea Eb : ℝ}
    (hax : a ≤ x) (hxb : x ≤ b) (ha : 0 ≤ a)
    (hta : 0 ≤ ta) (hta2 : ta ≤ 0.6931471803 * a)
    (htb : 0.6931471808 * b ≤ tb) (htb1 : tb ≤ 1)
    (hEa : Ea ≤ expPoly ta) (hEb : expPoly tb + tb ^ 8 * 9 / 322560 ≤ Eb) :
    Ea ≤ Real.exp (Real.log 2 * x) ∧ Real.exp (Real.log 2 * x) ≤ Eb := by
  have hL1 := Real.log_two_gt_d9
  have hL2 := Real.log_two_lt_d9
  have hx0 : 0 ≤ x := le_trans ha hax
  have hb0 : 0 ≤ b := le_trans hx0 hxb
  have hlow : ta ≤ Real.log 2 * x := by
    have h1 : 0.6931471803 * a ≤ Real.log 2 * a :=
      mul_le_mul_of_nonneg_right (le_of_lt hL1) ha
    have h2 : Real.log 2 * a ≤ Real.log 2 * x :=
      mul_le_mul_of_nonneg_left hax (le_of_lt log_two_pos)
    linarith
  have hhigh : Real.log 2 * x ≤ tb := by
    have h1 : Real.log 2 * x ≤ Real.log 2 * b :=
      mul_le_mul_of_nonneg_left hxb (le_of_lt log_two_pos)
    have h2 : Real.log 2 * b ≤ 0.6931471808 * b :=
      mul_le_mul_of_nonneg_right (le_of_lt hL2) hb0
    linarith
  have htb0 : 0 ≤ tb := le_trans (mul_nonneg (by norm_num) hb0) htb
  constructor
  · calc Ea ≤ expPoly ta := hEa
      _ ≤ Real.exp ta := expPoly_le_exp hta
      _ ≤ Real.exp (Real.log 2 * x) := Real.exp_le_exp.mpr hlow
  · calc Real.exp (Real.log 2 * x) ≤ Real.exp tb := Real.exp_le_exp.mpr hhigh
      _ ≤ expPoly tb + tb ^ 8 * 9 / 322560 := exp_le_expPoly_add htb0 htb1
      _ ≤ Eb := hEb

theorem fp_interval {x Ea Eb pa pb : ℝ}
    (hE1 : Ea ≤ Real.exp (Real.log 2 * x)) (hE2 : Real.exp (Real.log 2 * x) ≤ Eb)
    (hEa0 : 0 ≤ Ea)
    (hpa : pa ≤ 0.6931471803 * Ea - 1) (hpb : 0.6931471808 * Eb - 1 ≤ pb) :
    pa ≤ f_prime x ∧ f_prime x ≤ pb := by
  rw [fp_eq_exp]
  have hL1 := Real.log_two_gt_d9
  have hL2 := Real.log_two_lt_d9
  have hE0 : 0 ≤ Real.exp (Real.log 2 * x) := (Real.exp_pos _).le
  constructor
  · nlinarith [mul_le_mul_of_nonneg_right hE1 (le_of_lt log_two_pos),
      mul_le_mul_of_nonneg_left (le_of_lt hL1) hEa0]
  · nlinarith [mul_le_mul_of_nonneg_right hE2 (le_of_lt log_two_pos),
      mul_le_mul_of_nonneg_left (le_of_lt hL2) hE0]

theorem fpp_interval {x Ea Eb qa qb : ℝ}
    (hE1 : Ea ≤ Real.exp (Real.log 2 * x)) (hE2 : Real.exp (Real.log 2 * x) ≤ Eb)
    (hEa0 : 0 ≤ Ea)
    (hqa : qa ≤ 0.6931471803 ^ 2 * Ea) (hqb : 0.6931471808 ^ 2 * Eb ≤ qb) :
    qa ≤ f_double_prime x ∧ f_double_prime x ≤ qb := by
  rw [fpp_eq_exp]
  have hL1 := Real.log_two_gt_d9
  have hL2 := Real.log_two_lt_d9
  have hL0 := log_two_pos
  have hE0 : 0 ≤ Real.exp (Real.log 2 * x) := (Real.exp_pos _).le
  have hsq1 : (0.6931471803 : ℝ) ^ 2 ≤ Real.log 2 ^ 2 := by nlinarith
  have hsq2 : Real.log 2 ^ 2 ≤ (0.6931471808 : ℝ) ^ 2 := by nlinarith
  constructor
  · nlinarith [mul_le_mul_of_nonneg_right hE1 (le_of_lt (pow_pos hL0 2)),
      mul_le_mul_of_nonneg_left hsq1 hEa0]
  · nlinarith [mul_le_mul_of_nonneg_right hE2 (le_of_lt (pow_pos hL0 2)),
      mul_le_mul_of_nonneg_left hsq2 hE0]

theorem newtonMap_interval {x a b pa pb qa qb a2 b2 : ℝ}
    (hx1 : a ≤ x) (hx2 : x ≤ b)
    (hp1 : pa ≤ f_prime x) (hp2 : f_prime x ≤ pb) (hpa0 : 0 < pa)
    (hq1 : qa ≤ f_double_prime x) (hq2 : f_double_prime x ≤ qb) (hqa0 : 0 < qa)
    (ha2 : a2 ≤ a - pb / qa) (hb2 : b - pa / qb ≤ b2) :
    a2 ≤ newtonMap x ∧ newtonMap x ≤ b2 := by
  unfold newtonMap
  have hq0 : 0 < f_double_prime x := lt_of_lt_of_le hqa0 hq1
  have hfp0 : 0 ≤ f_prime x := le_trans (le_of_lt hpa0) hp1
  have hpb0 : 0 ≤ pb := le_trans hfp0 hp2
  have hub : f_prime x / f_double_prime x ≤ pb / qa := div_le_div₀ hpb0 hp2 hqa0 hq1
  have hlb : pa / qb ≤ f_prime x / f_double_prime x := div_le_div₀ hfp0 hp1 hq0 hq2
  constructor
  · linarith
  · linarith

end HW4

namespace HW4

theorem fp_zero_eq : f_prime 0 = Real.log 2 - 1 := by
  unfold f_prime
  rw [Real.rpow_zero]
  ring

theorem x1_bounds : (0.63867393917 : ℝ) ≤ newtonMap 0 ∧
    newtonMap 0 ≤ (0.63867394114 : ℝ) := by
  have hL1 := Real.log_two_gt_d9
  have hL2 := Real.log_two_lt_d9
  have hL0 := log_two_pos
  have hfpp0 : f_double_prime 0 = Real.log 2 ^ 2 := by
    unfold f_double_prime
    rw [Real.rpow_zero]
    ring
  have hLsq : 0 < Real.log 2 ^ 2 := pow_pos hL0 2
  unfold newtonMap
  rw [fp_zero_eq, hfpp0]
  have heq : (0 : ℝ) - (Real.log 2 - 1) / Real.log 2 ^ 2 =
      (1 - Real.log 2) / Real.log 2 ^ 2 := by ring
  rw [heq]
  constructor
  · rw [le_div_iff₀ hLsq]
    nlinarith [mul_nonneg (sub_nonneg.mpr (le_of_lt hL2)) (le_of_lt hL0)]
  · rw [div_le_iff₀ hLsq]
    nlinarith [mul_nonneg (sub_nonneg.mpr (le_of_lt hL1)) (le_of_lt hL0)]

theorem E1_bounds : (1.55689743211 : ℝ) ≤ Real.exp (Real.log 2 * newtonMap 0) ∧
    Real.exp (Real.log 2 * newtonMap 0) ≤ (1.55689747592 : ℝ) :=
  exp_interval 0.44269504006 0.44269504176 x1_bounds.1 x1_bounds.2 (by norm_num)
    (by norm_num) (by norm_num) (by norm_num) (by norm_num)
    (by unfold expPoly; norm_num) (by unfold expPoly; norm_num)

theorem fp1_bounds : (0.07915906508 : ℝ) ≤ f_prime (newtonMap 0) ∧
    f_prime (newtonMap 0) ≤ (0.07915909623 : ℝ) :=
  fp_interval E1_bounds.1 E1_bounds.2 (by norm_num) (by norm_num) (by norm_num)

theorem fpp1_bounds : (0.74801606305 : ℝ) ≤ f_double_prime (newtonMap 0) ∧
    f_double_prime (newtonMap 0) ≤ (0.74801608519 : ℝ) :=
  fpp_interval E1_bounds.1 E1_bounds.2 (by norm_num) (by norm_num) (by norm_num)

theorem x2_bounds : (0.53284854297 : ℝ) ≤ newtonMap (newtonMap 0) ∧
    newtonMap (newtonMap 0) ≤ (0.53284858973 : ℝ) :=
  newtonMap_interval x1_bounds.1 x1_bounds.2 fp1_bounds.1 fp1_bounds.2 (by norm_num)
    fpp1_bounds.1 fpp1_bounds.2 (by norm_num) (by norm_num) (by norm_num)

theorem E2_bounds : (1.44678298254 : ℝ) ≤ Real.exp (Real.log 2 * newtonMap (newtonMap 0)) ∧
    Real.exp (Real.log 2 * newtonMap (newtonMap 0)) ≤ (1.4467830395 : ℝ) :=
  exp_interval 0.36934246508 0.36934249777 x2_bounds.1 x2_bounds.2 (by norm_num)
    (by norm_num) (by norm_num) (by norm_num) (by norm_num)
    (by unfold expPoly; norm_num) (by unfold expPoly; norm_num)

theorem fp2_bounds : (0.00283354485 : ℝ) ≤ f_prime (newtonMap (newtonMap 0)) ∧
    f_prime (newtonMap (newtonMap 0)) ≤ (0.00283358506 : ℝ) :=
  fp_interval E2_bounds.1 E2_bounds.2 (by norm_num) (by norm_num) (by norm_num)

theorem fpp2_bounds : (0.69511124392 : ℝ) ≤ f_double_prime (newtonMap (newtonMap 0)) ∧
    f_double_prime (newtonMap (newtonMap 0)) ≤ (0.6951112723 : ℝ) :=
  fpp_interval E2_bounds.1 E2_bounds.2 (by norm_num) (by norm_num) (by norm_num)

theorem x3_bounds : (0.52877209465 : ℝ) ≤ newtonMap (newtonMap (newtonMap 0)) ∧
    newtonMap (newtonMap (newtonMap 0)) ≤ (0.52877219943 : ℝ) :=
  newtonMap_interval x2_bounds.1 x2_bounds.2 fp2_bounds.1 fp2_bounds.2 (by norm_num)
    fpp2_bounds.1 fpp2_bounds.2 (by norm_num) (by norm_num) (by norm_num)

theorem E3_bounds :
    (1.44270075397 : ℝ) ≤ Real.exp (Real.log 2 * newtonMap (newtonMap (newtonMap 0))) ∧
    Real.exp (Real.log 2 * newtonMap (newtonMap (newtonMap 0))) ≤ (1.44270086826 : ℝ) :=
  exp_interval 0.36651688642 0.36651695933 x3_bounds.1 x3_bounds.2 (by norm_num)
    (by norm_num) (by norm_num) (by norm_num) (by norm_num)
    (by unfold expPoly; norm_num) (by unfold expPoly; norm_num)

theorem fp3_bounds : (0.00000395963 : ℝ) ≤ f_prime (newtonMap (newtonMap (newtonMap 0))) ∧
    f_prime (newtonMap (newtonMap (newtonMap 0))) ≤ (0.00000403958 : ℝ) :=
  fp_interval E3_bounds.1 E3_bounds.2 (by norm_num) (by norm_num) (by norm_num)

theorem fp0_not_lt : ¬ |f_prime 0| < (1 / 100000 : ℝ) := by
  rw [fp_zero_eq]
  have hL2 := Real.log_two_lt_d9
  rw [abs_of_neg (by linarith)]
  intro h
  linarith

theorem fp1_not_lt : ¬ |f_prime (newtonMap 0)| < (1 / 100000 : ℝ) := by
  have h := fp1_bounds.1
  rw [abs_of_pos (by linarith)]
  intro hc
  linarith

theorem fp2_not_lt : ¬ |f_prime (newtonMap (newtonMap 0))| < (1 / 100000 : ℝ) := by
  have h := fp2_bounds.1
  rw [abs_of_pos (by linarith)]
  intro hc
  linarith

theorem fp3_lt : |f_prime (newtonMap (newtonMap (newtonMap 0)))| < (1 / 100000 : ℝ) := by
  have h1 := fp3_bounds.1
  have h2 := fp3_bounds.2
  rw [abs_of_pos (by linarith)]
  linarith

theorem fp_probe_hi_pos : 0 < f_prime (0.52878209465 : ℝ) := by
  have hE : (1.44271075404 : ℝ) ≤ Real.exp (Real.log 2 * (0.52878209465 : ℝ)) ∧
      Real.exp (Real.log 2 * (0.52878209465 : ℝ)) ≤ (1.44271235404 : ℝ) :=
    exp_interval 0.36652381789 0.36652381897
      (le_refl (0.52878209465 : ℝ)) (le_refl (0.52878209465 : ℝ))
      (by norm_num) (by norm_num) (by norm_num) (by norm_num) (by norm_num)
      (by unfold expPoly; norm_num) (by unfold expPoly; norm_num)
  have h : (0.000010891151 : ℝ) ≤ f_prime (0.52878209465 : ℝ) ∧
      f_prime (0.52878209465 : ℝ) ≤ (1 : ℝ) :=
    fp_interval hE.1 hE.2 (by norm_num) (by norm_num) (by norm_num)
  linarith [h.1]

theorem fp_probe_lo_neg : f_prime (0.52876219943 : ℝ) < 0 := by
  have hE : (1.44260086824 : ℝ) ≤ Real.exp (Real.log 2 * (0.52876219943 : ℝ)) ∧
      Real.exp (Real.log 2 * (0.52876219943 : ℝ)) ≤ (1.44269086824 : ℝ) :=
    exp_interval 0.36650002785 0.36651002785
      (le_refl (0.52876219943 : ℝ)) (le_refl (0.52876219943 : ℝ))
      (by norm_num) (by norm_num) (by norm_num) (by norm_num) (by norm_num)
      (by unfold expPoly; norm_num) (by unfold expPoly; norm_num)
  have h : (-1 : ℝ) ≤ f_prime (0.52876219943 : ℝ) ∧
      f_prime (0.52876219943 : ℝ) ≤ (-0.0000028 : ℝ) :=
    fp_interval hE.1 hE.2 (by norm_num) (by norm_num) (by norm_num)
  linarith [h.2]

theorem xstar_lt_probe : xstar < (0.52878209465 : ℝ) := by
  by_contra hc
  push_neg at hc
  rcases eq_or_lt_of_le hc with heq | hlt
  · have := fp_probe_hi_pos
    rw [heq, fp_xstar] at this
    exact lt_irrefl _ this
  · have h := fp_strictMono hlt
    rw [fp_xstar] at h
    exact absurd fp_probe_hi_pos (by linarith)

theorem xstar_gt_probe : (0.52876219943 : ℝ) < xstar := by
  by_contra hc
  push_neg at hc
  rcases eq_or_lt_of_le hc with heq | hlt
  · have := fp_probe_lo_neg
    rw [← heq, fp_xstar] at this
    exact lt_irrefl _ this
  · have h := fp_strictMono hlt
    rw [fp_xstar] at h
    exact absurd fp_probe_lo_neg (by linarith)

end HW4

open HW4 in
/-- Claim C7: running HW4's fixed-step newton_method on f(x) = -x + 2^x from
x0 = 0 with tolerance 1/100000 and at most 10 iterations returns a solution
within 1/100000 of the closed-form stationary point
xstar = -log2 (ln 2) (about 0.528766). -/
theorem hw4_scenario_matches_xstar :
    |(newton_method 0 (1 / 100000) 10).1 - xstar| ≤ (1 / 100000 : ℝ) := by
  have hrun : (newton_method 0 (1 / 100000) 10).1 = newtonMap (newtonMap (newtonMap 0)) := by
    unfold newton_method
    rw [show (10 : ℕ) = 9 + 1 from rfl, loop4_succ_go fp0_not_lt]
    rw [show (9 : ℕ) = 8 + 1 from rfl, loop4_succ_go fp1_not_lt]
    rw [show (8 : ℕ) = 7 + 1 from rfl, loop4_succ_go fp2_not_lt]
    rw [show (7 : ℕ) = 6 + 1 from rfl, loop4_succ_stop fp3_lt]
  rw [hrun, abs_le]
  have h1 := x3_bounds.1
  have h2 := x3_bounds.2
  have h3 := xstar_lt_probe
  have h4 := xstar_gt_probe
  constructor
  · linarith
  · linarith
